import Mathlib

/-!
Verification model of the suwayomi-bot core (bot.py and cogs/suwayomi.py).

The Python source is shallowly embedded: each relevant function becomes a
total Lean function, stateful code passes explicit state, and the network
is abstracted as an environment mapping each endpoint URL to the outcome
of the HTTP POST issued against it.
-/

/-! ## GraphQL Gateway (bot.py, `SuwayomiBot.graphql_query`, lines 220-322)

One call holds: the sticky endpoint `_working_endpoint`, the session
handle (tracked here as a generation counter incremented whenever the
code sets `self.session = None` and rebuilds it), and, for specification
purposes, the trace of endpoints actually POSTed to. -/

/-- Outcome of POSTing to one endpoint, as seen by the `try`/`except`
blocks of `graphql_query`:
* `http status errors dat` — a response arrived; for status 200 the JSON
  body parsed, `errors` says whether the body has an `errors` key, and
  `dat` is the body's `data` value (`none` for absent or falsy data);
* `timeout` — `asyncio.TimeoutError` raised;
* `connFault` — `aiohttp.ClientError` raised;
* `badBody` — any other exception (e.g. `response.json()` failing). -/
inductive Response where
  | http (status : Nat) (errors : Bool) (dat : Option Nat)
  | timeout
  | connFault
  | badBody
deriving DecidableEq, Repr

/-- Mutable state read and written by one `graphql_query` call. -/
structure GwState where
  /-- `self._working_endpoint` -/
  sticky : Option String
  /-- generation of the aiohttp session handle in use -/
  sessionGen : Nat
  /-- endpoints POSTed to so far, in order (a history, for the spec) -/
  tried : List String
deriving DecidableEq, Repr

/-- `if endpoint not in endpoints: endpoints.append(endpoint)` (bot.py 248-250). -/
def addUnique (l : List String) (x : String) : List String :=
  if x ∈ l then l else l ++ [x]

/-- The two fixed candidate paths (bot.py 243-246). -/
def base_endpoints (url : String) : List String :=
  [url ++ "/api/graphql", url ++ "/graphql"]

/-- The candidate list of one call (bot.py 236-250): the sticky endpoint
first when set, then each fixed candidate not already present. -/
def buildEndpoints (sticky : Option String) (url : String) : List String :=
  let eps : List String := match sticky with | some s => [s] | none => []
  (base_endpoints url).foldl addUnique eps

/-- The `for graphql_url in endpoints` loop of `graphql_query`
(bot.py 264-322), including the fall-through after the loop:
* 404 → `continue` (line 278-280);
* 200 with errors and falsy data → `return None` (284-288);
* 200 otherwise → record sticky, `return result.get("data")` (291-293);
* any other status → log and fall through to the next candidate (294-297);
* `asyncio.TimeoutError` → `continue` (299-301);
* `aiohttp.ClientError` → `self.session = None`, rebuild, `continue` (302-307);
* any other exception → `continue` (308-310);
* list exhausted → `self._working_endpoint = None`, `return None` (313-322). -/
def stepEndpoints (env : String → Response) : List String → GwState → Option Nat × GwState
  | [], st => (none, { st with sticky := none })
  | e :: rest, st =>
    let st1 := { st with tried := st.tried ++ [e] }
    match env e with
    | .http status errors dat =>
      if status = 404 then stepEndpoints env rest st1
      else if status = 200 then
        if errors && dat.isNone then (none, st1)
        else (dat, { st1 with sticky := some e })
      else stepEndpoints env rest st1
    | .timeout => stepEndpoints env rest st1
    | .connFault => stepEndpoints env rest { st1 with sessionGen := st1.sessionGen + 1 }
    | .badBody => stepEndpoints env rest st1

/-- `SuwayomiBot.graphql_query` (bot.py 220-322) for one call:
build the candidate list from the current sticky endpoint and walk it.
The trace of tried endpoints is collected per call. -/
def graphql_query (env : String → Response) (url : String) (st : GwState) :
    Option Nat × GwState :=
  stepEndpoints env (buildEndpoints st.sticky url) { st with tried := [] }

/-- A response that the `except` clauses of `graphql_query` catch:
a network-level condition rather than an HTTP response. -/
def netFault : Response → Bool
  | .http _ _ _ => false
  | _ => true

/-! ### Helper lemmas about the candidate list -/

theorem api_path_ne_alt_path (url : String) :
    url ++ "/api/graphql" ≠ url ++ "/graphql" := by
  intro h
  have h2 := congrArg String.length h
  rw [String.length_append, String.length_append] at h2
  have ha : ("/api/graphql" : String).length = 12 := rfl
  have hb : ("/graphql" : String).length = 8 := rfl
  omega

theorem base_endpoints_nodup (url : String) : (base_endpoints url).Nodup := by
  simp [base_endpoints, api_path_ne_alt_path url]

theorem buildEndpoints_eq (sticky : Option String) (url : String) :
    buildEndpoints sticky url =
      sticky.toList ++ (base_endpoints url).filter (fun b => ¬ b ∈ sticky.toList) := by
  have hne := api_path_ne_alt_path url
  have hne2 : ¬ (url ++ "/graphql" = url ++ "/api/graphql") := fun h => hne h.symm
  cases sticky with
  | none =>
    simp [buildEndpoints, base_endpoints, addUnique, List.foldl, hne2]
  | some s =>
    by_cases h1 : url ++ "/api/graphql" = s
    · by_cases h2 : url ++ "/graphql" = s
      · exact absurd (h1.trans h2.symm) hne
      · simp [buildEndpoints, base_endpoints, addUnique, List.foldl, h1, h2, hne2]
    · by_cases h2 : url ++ "/graphql" = s
      · simp [buildEndpoints, base_endpoints, addUnique, List.foldl, h1, h2, hne2]
      · simp [buildEndpoints, base_endpoints, addUnique, List.foldl, h1, h2, hne2]

theorem buildEndpoints_nodup (sticky : Option String) (url : String) :
    (buildEndpoints sticky url).Nodup := by
  rw [buildEndpoints_eq]
  rw [List.nodup_append]
  refine ⟨?_, ?_, ?_⟩
  · cases sticky <;> simp
  · exact (base_endpoints_nodup url).filter _
  · intro a ha hb
    have hm := List.of_mem_filter hb
    simp at ha hm
    exact hm ha

/-! ### Helper lemmas about the candidate loop -/

theorem stepEndpoints_nil (env : String → Response) (st : GwState) :
    stepEndpoints env [] st = (none, { st with sticky := none }) := rfl

theorem stepEndpoints_timeout (env : String → Response) (e : String)
    (rest : List String) (st : GwState) (h : env e = .timeout) :
    stepEndpoints env (e :: rest) st =
      stepEndpoints env rest { st with tried := st.tried ++ [e] } := by
  simp [stepEndpoints, h]

theorem stepEndpoints_connFault (env : String → Response) (e : String)
    (rest : List String) (st : GwState) (h : env e = .connFault) :
    stepEndpoints env (e :: rest) st =
      stepEndpoints env rest
        { st with tried := st.tried ++ [e], sessionGen := st.sessionGen + 1 } := by
  simp [stepEndpoints, h]

theorem stepEndpoints_badBody (env : String → Response) (e : String)
    (rest : List String) (st : GwState) (h : env e = .badBody) :
    stepEndpoints env (e :: rest) st =
      stepEndpoints env rest { st with tried := st.tried ++ [e] } := by
  simp [stepEndpoints, h]

theorem stepEndpoints_404 (env : String → Response) (e : String)
    (rest : List String) (st : GwState) (errors : Bool) (dat : Option Nat)
    (h : env e = .http 404 errors dat) :
    stepEndpoints env (e :: rest) st =
      stepEndpoints env rest { st with tried := st.tried ++ [e] } := by
  simp [stepEndpoints, h]

theorem stepEndpoints_other_status (env : String → Response) (e : String)
    (rest : List String) (st : GwState) (status : Nat) (errors : Bool)
    (dat : Option Nat) (h : env e = .http status errors dat)
    (h200 : status ≠ 200) (h404 : status ≠ 404) :
    stepEndpoints env (e :: rest) st =
      stepEndpoints env rest { st with tried := st.tried ++ [e] } := by
  simp [stepEndpoints, h, h200, h404]

theorem stepEndpoints_200_errors_no_data (env : String → Response) (e : String)
    (rest : List String) (st : GwState) (h : env e = .http 200 true none) :
    stepEndpoints env (e :: rest) st = (none, { st with tried := st.tried ++ [e] }) := by
  simp [stepEndpoints, h]

theorem stepEndpoints_200_usable (env : String → Response) (e : String)
    (rest : List String) (st : GwState) (errors : Bool) (dat : Option Nat)
    (h : env e = .http 200 errors dat) (husable : errors = false ∨ dat.isSome) :
    stepEndpoints env (e :: rest) st =
      (dat, { st with tried := st.tried ++ [e], sticky := some e }) := by
  have hcond : (errors && dat.isNone) = false := by
    rcases husable with h1 | h1
    · simp [h1]
    · cases dat with
      | none => simp at h1
      | some d => simp
  simp [stepEndpoints, h, hcond]

/-- Every call tries a prefix of its candidate list: the trace it appends
is `eps.take m` for some `m`. -/
theorem stepEndpoints_tried_take (env : String → Response) :
    ∀ (eps : List String) (st : GwState),
      ∃ m, (stepEndpoints env eps st).2.tried = st.tried ++ eps.take m := by
  intro eps
  induction eps with
  | nil => intro st; exact ⟨0, by simp [stepEndpoints]⟩
  | cons e rest ih =>
    intro st
    have hstep : ∀ st1 : GwState, st1.tried = st.tried ++ [e] →
        ∃ m, (stepEndpoints env rest st1).2.tried = st.tried ++ (e :: rest).take m := by
      intro st1 h1
      obtain ⟨m, hm⟩ := ih st1
      exact ⟨m + 1, by simp [hm, h1]⟩
    cases henv : env e with
    | http status errors dat =>
      by_cases h404 : status = 404
      · subst h404
        rw [stepEndpoints_404 env e rest st errors dat henv]
        exact hstep _ rfl
      · by_cases h200 : status = 200
        · subst h200
          by_cases herr : (errors && dat.isNone) = true
        -- errors with no usable data: returns at once, having tried only e
          · rw [show errors = true by simp_all, show dat = none by
              cases dat <;> simp_all] at henv
            rw [stepEndpoints_200_errors_no_data env e rest st henv]
            exact ⟨1, by simp⟩
          · have husable : errors = false ∨ dat.isSome := by
              cases errors <;> cases dat <;> simp_all
            rw [stepEndpoints_200_usable env e rest st errors dat henv husable]
            exact ⟨1, by simp⟩
        · rw [stepEndpoints_other_status env e rest st status errors dat henv h200 h404]
          exact hstep _ rfl
    | timeout =>
      rw [stepEndpoints_timeout env e rest st henv]
      exact hstep _ rfl
    | connFault =>
      rw [stepEndpoints_connFault env e rest st henv]
      exact hstep _ rfl
    | badBody =>
      rw [stepEndpoints_badBody env e rest st henv]
      exact hstep _ rfl

/-- If every candidate's POST ends in a caught network-level condition,
the loop falls off the end and yields the no-result value. -/
theorem stepEndpoints_all_faults (env : String → Response) :
    ∀ (eps : List String) (st : GwState),
      (∀ e ∈ eps, netFault (env e) = true) →
      (stepEndpoints env eps st).1 = none ∧
      (stepEndpoints env eps st).2.sticky = none := by
  intro eps
  induction eps with
  | nil => intro st _; simp [stepEndpoints]
  | cons e rest ih =>
    intro st h
    have he : netFault (env e) = true := h e (by simp)
    have hrest : ∀ x ∈ rest, netFault (env x) = true := fun x hx => h x (by simp [hx])
    cases henv : env e with
    | http status errors dat => rw [henv] at he; simp [netFault] at he
    | timeout => rw [stepEndpoints_timeout env e rest st henv]; exact ih _ hrest
    | connFault => rw [stepEndpoints_connFault env e rest st henv]; exact ih _ hrest
    | badBody => rw [stepEndpoints_badBody env e rest st henv]; exact ih _ hrest

/-- If every candidate answers with an HTTP status other than 200 and 404,
the loop advances past each one and yields the no-result value. -/
theorem stepEndpoints_all_bad_status (env : String → Response) :
    ∀ (eps : List String) (st : GwState),
      (∀ e ∈ eps, ∃ status errors dat,
        env e = .http status errors dat ∧ status ≠ 200 ∧ status ≠ 404) →
      (stepEndpoints env eps st).1 = none ∧
      (stepEndpoints env eps st).2.sticky = none := by
  intro eps
  induction eps with
  | nil => intro st _; simp [stepEndpoints]
  | cons e rest ih =>
    intro st h
    obtain ⟨status, errors, dat, henv, h200, h404⟩ := h e (by simp)
    rw [stepEndpoints_other_status env e rest st status errors dat henv h200 h404]
    exact ih _ (fun x hx => h x (by simp [hx]))

/-! ## Transport Session (bot.py, `SuwayomiBot.ensure_session` 169-196 and
`SuwayomiBot.close` 335-343)

Session handles are modelled by fresh numeric ids. `current` is
`self.session` (`none` = the attribute is `None`), `closedIds` records
which handles have been closed, and `created` records every handle ever
built, newest first, so creations can be counted. The body of
`ensure_session` runs under `self._session_lock`, so concurrent
acquisitions execute their check-then-create sections one after the
other; operation sequences model the serialized interleavings. -/

structure SessionSt where
  nextId : Nat
  /-- `self.session`; a handle in `closedIds` is a closed session object -/
  current : Option Nat
  closedIds : List Nat
  /-- every handle ever constructed, newest first -/
  created : List Nat
deriving DecidableEq, Repr

/-- The creation branch of `ensure_session` (bot.py 173-195). -/
def buildSession (st : SessionSt) : Nat × SessionSt :=
  (st.nextId,
   { nextId := st.nextId + 1
     current := some st.nextId
     closedIds := st.closedIds
     created := st.nextId :: st.created })

/-- `SuwayomiBot.ensure_session` (bot.py 169-196): under the lock, if
`self.session is None or self.session.closed`, build a new handle;
either way return `self.session`. -/
def ensure_session (st : SessionSt) : Nat × SessionSt :=
  match st.current with
  | some h => if h ∈ st.closedIds then buildSession st else (h, st)
  | none => buildSession st

/-- `SuwayomiBot.close` (bot.py 335-343): `if self.session and not
self.session.closed: await self.session.close()`. -/
def close_session (st : SessionSt) : SessionSt :=
  match st.current with
  | some h => if h ∈ st.closedIds then st else { st with closedIds := h :: st.closedIds }
  | none => st

inductive SessOp where
  | ensure
  | close
deriving DecidableEq, Repr

/-- Run a serialized sequence of session operations. -/
def runSessOps : List SessOp → SessionSt → SessionSt
  | [], st => st
  | .ensure :: rest, st => runSessOps rest (ensure_session st).2
  | .close :: rest, st => runSessOps rest (close_session st)

/-- Bot start-up state: `self.session = None` (bot.py 74). -/
def initSessionSt : SessionSt := ⟨0, none, [], []⟩

/-- Handles that have been built and never closed. -/
def liveHandles (st : SessionSt) : List Nat :=
  st.created.filter (fun h => ¬ h ∈ st.closedIds)

/-- State invariant: at most one live handle, every live handle is the
current one, and bookkeeping bounds on ids. -/
def SessInv (st : SessionSt) : Prop :=
  (liveHandles st).length ≤ 1 ∧
  (∀ h ∈ liveHandles st, st.current = some h) ∧
  (∀ h ∈ st.created, h < st.nextId) ∧
  (∀ h ∈ st.closedIds, h < st.nextId) ∧
  (∀ h, st.current = some h → h ∈ st.created)

theorem sessInv_init : SessInv initSessionSt := by
  refine ⟨?_, ?_, ?_, ?_, ?_⟩ <;> simp [initSessionSt, liveHandles]

theorem liveHandles_empty_of_dead (st : SessionSt) (hinv : SessInv st)
    (hdead : st.current = none ∨ ∃ h, st.current = some h ∧ h ∈ st.closedIds) :
    liveHandles st = [] := by
  obtain ⟨_, hcur, _, _, _⟩ := hinv
  by_contra hne
  obtain ⟨x, hx⟩ := List.exists_mem_of_ne_nil _ hne
  have hxcur := hcur x hx
  have hxlive := List.of_mem_filter hx
  simp at hxlive
  rcases hdead with h | ⟨h, hh, hclosed⟩
  · rw [h] at hxcur; exact Option.noConfusion hxcur
  · rw [hh] at hxcur
    have : x = h := by injection hxcur.symm
    exact hxlive (this ▸ hclosed)

theorem sessInv_buildSession (st : SessionSt) (hinv : SessInv st)
    (hdead : st.current = none ∨ ∃ h, st.current = some h ∧ h ∈ st.closedIds) :
    SessInv (buildSession st).2 ∧ liveHandles (buildSession st).2 = [st.nextId] := by
  obtain ⟨hlen, hcur, hcreated, hclosed, hcc⟩ := hinv
  have hempty := liveHandles_empty_of_dead st ⟨hlen, hcur, hcreated, hclosed, hcc⟩ hdead
  have hfresh : ¬ st.nextId ∈ st.closedIds := fun hmem =>
    absurd (hclosed _ hmem) (lt_irrefl _)
  have hlive : liveHandles (buildSession st).2 = [st.nextId] := by
    simp [liveHandles, buildSession, hfresh] at hempty ⊢
    exact hempty
  refine ⟨⟨?_, ?_, ?_, ?_, ?_⟩, hlive⟩
  · rw [hlive]; simp
  · intro h hh
    rw [hlive] at hh
    simp at hh
    simp [buildSession, hh]
  · intro h hh
    simp [buildSession] at hh ⊢
    rcases hh with h1 | h1
    · omega
    · exact Nat.lt_succ_of_lt (hcreated _ h1)
  · intro h hh
    simp [buildSession] at hh ⊢
    exact Nat.lt_succ_of_lt (hclosed _ hh)
  · intro h hh
    simp [buildSession] at hh ⊢
    left
    exact hh.symm

theorem sessInv_ensure (st : SessionSt) (hinv : SessInv st) :
    SessInv (ensure_session st).2 := by
  rcases hc : st.current with _ | h
  · have hb := (sessInv_buildSession st hinv (Or.inl hc)).1
    simpa [ensure_session, hc] using hb
  · by_cases hcl : h ∈ st.closedIds
    · have := (sessInv_buildSession st hinv (Or.inr ⟨h, hc, hcl⟩)).1
      simpa [ensure_session, hc, hcl] using this
    · simpa [ensure_session, hc, hcl] using hinv

theorem sessInv_close (st : SessionSt) (hinv : SessInv st) :
    SessInv (close_session st) := by
  obtain ⟨hlen, hcur, hcreated, hclosed, hcc⟩ := hinv
  rcases hc : st.current with _ | h
  · simpa [close_session, hc] using ⟨hlen, hcur, hcreated, hclosed, hcc⟩
  · by_cases hcl : h ∈ st.closedIds
    · simpa [close_session, hc, hcl] using ⟨hlen, hcur, hcreated, hclosed, hcc⟩
    · have hnil : liveHandles (close_session st) = [] := by
        by_contra hne
        obtain ⟨x, hx⟩ := List.exists_mem_of_ne_nil _ hne
        have hmem := List.mem_of_mem_filter hx
        have hp := List.of_mem_filter hx
        simp [close_session, hc, hcl] at hp hmem
        have hxl : x ∈ liveHandles st := List.mem_filter.mpr (by simp [hmem, hp.2])
        have hxc := hcur x hxl
        rw [hc] at hxc
        exact hp.1 (by injection hxc.symm)
      refine ⟨?_, ?_, ?_, ?_, ?_⟩
      · rw [hnil]; simp
      · intro x hx
        rw [hnil] at hx
        simp at hx
      · intro x hx
        simp [close_session, hc, hcl] at hx ⊢
        exact hcreated _ hx
      · intro x hx
        simp [close_session, hc, hcl] at hx ⊢
        rcases hx with h1 | h1
        · subst h1
          exact hcreated _ (hcc _ hc)
        · exact hclosed _ h1
      · intro x hx
        simp [close_session, hc, hcl] at hx ⊢
        exact hx ▸ hcc _ hc

theorem sessInv_runOps (ops : List SessOp) :
    ∀ st, SessInv st → SessInv (runSessOps ops st) := by
  induction ops with
  | nil => intro st h; exact h
  | cons op rest ih =>
    intro st h
    cases op with
    | ensure => exact ih _ (sessInv_ensure st h)
    | close => exact ih _ (sessInv_close st h)

/-! ## Configuration loading (bot.py, `Config.__init__` 30-36 and
`Config.validate` 38-52)

Environment values are modelled as `List Char`. Python's
`str.strip(chars)` removes the given characters from both ends;
`str.rstrip(chars)` from the right end only; the no-argument `strip()`
removes whitespace (modelled by `Char.isWhitespace`, which covers the
ASCII whitespace that appears in .env values). -/

/-- Remove leading characters satisfying `p` (left part of `str.strip`). -/
def stripLeft (p : Char → Bool) (l : List Char) : List Char := l.dropWhile p

/-- Remove trailing characters satisfying `p` (`str.rstrip`). -/
def stripRight (p : Char → Bool) (l : List Char) : List Char :=
  (l.reverse.dropWhile p).reverse

/-- Python `str.strip` with a one-character set. -/
def pyStrip (p : Char → Bool) (l : List Char) : List Char :=
  stripRight p (stripLeft p l)

/-- bot.py line 33:
`os.getenv("SUWAYOMI_URL", "").strip().strip('"').strip("'").rstrip('/')`. -/
def normalizeUrl (l : List Char) : List Char :=
  stripRight (fun c => c = '/')
    (pyStrip (fun c => c = '\'')
      (pyStrip (fun c => c = '"')
        (pyStrip Char.isWhitespace l)))

/-- bot.py line 34:
`os.getenv("SUWAYOMI_API_KEY", "").strip().strip('"').strip("'")`. -/
def normalizeApiKey (l : List Char) : List Char :=
  pyStrip (fun c => c = '\'') (pyStrip (fun c => c = '"') (pyStrip Char.isWhitespace l))

/-- `a` is a leading fragment of `b` (Python `str.startswith`). -/
def leadsWith : List Char → List Char → Bool
  | [], _ => true
  | _ :: _, [] => false
  | p :: ps, c :: cs => p = c && leadsWith ps cs

/-- `Config.validate` (bot.py 38-52), restricted to the URL checks: the
value must be non-empty (else it is reported missing), must start with
`http://` or `https://`, and must contain no quote character. -/
def validConfigUrl (l : List Char) : Bool :=
  ¬ l.isEmpty &&
  (leadsWith "http://".data l || leadsWith "https://".data l) &&
  ¬ (l.contains '"' || l.contains '\'')

/-! ### Helper lemmas about stripping -/

theorem dropWhile_of_head_false (p : Char → Bool) (c : Char) (l : List Char)
    (h : p c = false) : (c :: l).dropWhile p = c :: l := by
  simp [List.dropWhile, h]

theorem stripRight_of_last_false (p : Char → Bool) (l : List Char)
    (h : ∀ c, l.getLast? = some c → p c = false) : stripRight p l = l := by
  unfold stripRight
  cases hl : l.reverse with
  | nil =>
    have : l = [] := by simpa using congrArg List.reverse hl
    simp [this]
  | cons c t =>
    have hc : l.getLast? = some c := by
      rw [List.getLast?_eq_head?_reverse, hl]
      rfl
    rw [dropWhile_of_head_false p c t (h c hc), ← hl]
    simp

theorem stripLeft_of_head_false (p : Char → Bool) (l : List Char)
    (h : ∀ c, l.head? = some c → p c = false) : stripLeft p l = l := by
  unfold stripLeft
  cases l with
  | nil => rfl
  | cons c t => exact dropWhile_of_head_false p c t (h c rfl)

theorem pyStrip_of_ends_false (p : Char → Bool) (l : List Char)
    (hh : ∀ c, l.head? = some c → p c = false)
    (hl : ∀ c, l.getLast? = some c → p c = false) : pyStrip p l = l := by
  unfold pyStrip
  rw [stripLeft_of_head_false p l hh, stripRight_of_last_false p l hl]

/-- Strip one layer of surrounding double quotes from a quote-free body:
`"u"` normalizes like `u`. -/
theorem pyStrip_quote_wrap (l : List Char) (hne : l ≠ [])
    (hq : ∀ c ∈ l, ¬ c = '"') :
    pyStrip (fun c => c = '"') ('"' :: l ++ ['"']) = l := by
  obtain ⟨c0, t, rfl⟩ := List.exists_cons_of_ne_nil hne
  have hc0 : ¬ c0 = '"' := hq c0 (by simp)
  unfold pyStrip stripLeft stripRight
  simp only [List.cons_append]
  have h1 : List.dropWhile (fun c => decide (c = '"')) ('"' :: c0 :: (t ++ ['"'])) =
      c0 :: (t ++ ['"']) := by
    simp [List.dropWhile, hc0]
  rw [h1]
  cases hrev : (c0 :: t).reverse with
  | nil => simp at hrev
  | cons a b =>
    have ha : a ∈ c0 :: t := by
      rw [← List.mem_reverse, hrev]
      simp
    have hpa : ¬ a = '"' := hq a ha
    have h2 : ((c0 :: (t ++ ['"'])) : List Char).reverse = '"' :: a :: b := by
      rw [show (c0 :: (t ++ ['"']) : List Char) = (c0 :: t) ++ ['"'] by simp,
        List.reverse_append, hrev]
      rfl
    rw [h2]
    simp [List.dropWhile, hpa, ← hrev]

/-! ## Batch Mutation Executor (cogs/suwayomi.py, `MangaActionView.add_button`,
lines 494-506)

```
batch_size = 50
for i in range(0, len(chapter_ids), batch_size):
    batch = chapter_ids[i:i + batch_size]
    result = await self.bot.graphql_query(download_mutation, ...)
    if not result:
        download_success = False
        break
    downloaded_count += len(batch)
```

The per-call Gateway outcome is abstracted as an oracle `ok k` telling
whether the `k`-th call (0-based) returned usable data. The source fixes
`batch_size = 50`; the loop body is generic in it, so the model takes the
chunk size as a parameter. -/

/-- Python `range(0, stop, step)` for `step > 0` (for `step = 0` Python
raises; the claims assume a positive chunk size). -/
def pyRange (stop step : Nat) : List Nat :=
  List.range' 0 ((stop + step - 1) / step) step

/-- Python slice `l[i : i + c]`. -/
def pySlice (l : List Nat) (i c : Nat) : List Nat := (l.drop i).take c

/-- Result of one run of the download loop. -/
structure BatchRun where
  /-- `downloaded_count` -/
  count : Nat
  /-- `download_success` -/
  success : Bool
  /-- the chunks actually passed to the Gateway, in order (a history) -/
  calls : List (List Nat)
deriving DecidableEq, Repr

/-- The download loop over the remaining start indices; `k` is the number
of calls already issued and `count` the ids queued so far. -/
def submitGo (ids : List Nat) (c : Nat) (ok : Nat → Bool) :
    List Nat → Nat → Nat → BatchRun
  | [], _, count => ⟨count, true, []⟩
  | i :: is, k, count =>
    let batch := pySlice ids i c
    if ok k then
      let r := submitGo ids c ok is (k + 1) (count + batch.length)
      ⟨r.count, r.success, batch :: r.calls⟩
    else ⟨count, false, [batch]⟩

/-- The whole batch loop (cogs/suwayomi.py 495-506). -/
def submitBatch (ids : List Nat) (c : Nat) (ok : Nat → Bool) : BatchRun :=
  submitGo ids c ok (pyRange ids.length c) 0 0

/-- The chunk sequence the loop slices out. -/
def batchChunks (ids : List Nat) (c : Nat) : List (List Nat) :=
  (pyRange ids.length c).map (fun i => pySlice ids i c)

/-! ### Helper lemmas about the batch loop -/

theorem submitGo_all_ok (ids : List Nat) (c : Nat) (ok : Nat → Bool) :
    ∀ (is : List Nat) (k count : Nat),
      (∀ j, j < is.length → ok (k + j) = true) →
      submitGo ids c ok is k count =
        ⟨count + ((is.map (fun i => pySlice ids i c)).map List.length).sum, true,
          is.map (fun i => pySlice ids i c)⟩ := by
  intro is
  induction is with
  | nil => intro k count _; simp [submitGo]
  | cons i rest ih =>
    intro k count h
    have hk : ok k = true := by have := h 0 (by simp); simpa using this
    have hrest : ∀ j, j < rest.length → ok ((k + 1) + j) = true := by
      intro j hj
      have := h (j + 1) (by simp; omega)
      simpa [Nat.add_assoc, Nat.add_comm 1 j] using this
    simp only [submitGo, hk, if_pos]
    rw [ih (k + 1) (count + (pySlice ids i c).length) hrest]
    simp [Nat.add_assoc]

theorem submitGo_first_fail (ids : List Nat) (c : Nat) (ok : Nat → Bool) :
    ∀ (m : Nat) (is : List Nat) (k count : Nat),
      m < is.length →
      ok (k + m) = false →
      (∀ j, j < m → ok (k + j) = true) →
      submitGo ids c ok is k count =
        ⟨count + (((is.take m).map (fun i => pySlice ids i c)).map List.length).sum,
          false,
          (is.take (m + 1)).map (fun i => pySlice ids i c)⟩ := by
  intro m
  induction m with
  | zero =>
    intro is k count hlt hfail _
    cases is with
    | nil => simp at hlt
    | cons i rest =>
      have hk : ok k = false := by simpa using hfail
      simp [submitGo, hk]
  | succ m ih =>
    intro is k count hlt hfail hpre
    cases is with
    | nil => simp at hlt
    | cons i rest =>
      have hk : ok k = true := by have := hpre 0 (by omega); simpa using this
      have hfail2 : ok ((k + 1) + m) = false := by
        have : k + 1 + m = k + (m + 1) := by omega
        rw [this]; exact hfail
      have hpre2 : ∀ j, j < m → ok ((k + 1) + j) = true := by
        intro j hj
        have : k + 1 + j = k + (j + 1) := by omega
        rw [this]; exact hpre (j + 1) (by omega)
      simp only [submitGo, hk, if_pos]
      rw [ih rest (k + 1) (count + (pySlice ids i c).length) (by simpa using hlt)
        hfail2 hpre2]
      simp [Nat.add_assoc]

theorem pyRange_length (stop step : Nat) :
    (pyRange stop step).length = (stop + step - 1) / step := by
  simp [pyRange]

theorem pyRange_get (stop step : Nat) (i : Nat)
    (h : i < (pyRange stop step).length) :
    (pyRange stop step).get ⟨i, h⟩ = step * i := by
  simp [pyRange, List.range'_eq_map_range] at h ⊢

/-- Splicing the slices back together: the chunk list flattens to `ids`. -/
theorem batchChunks_flatten (ids : List Nat) (c : Nat) (hc : 0 < c) :
    (batchChunks ids c).flatten = ids := by
  have key : ∀ (m s : Nat), ids.length ≤ s + m * c →
      ((List.range' s m c).map (fun i => pySlice ids i c)).flatten = ids.drop s := by
    intro m
    induction m with
    | zero =>
      intro s hs
      simp at hs
      simp [List.drop_eq_nil_of_le hs]
    | succ m ih =>
      intro s hs
      rw [List.range'_succ]
      simp only [List.map_cons, List.flatten_cons]
      have hmc : (m + 1) * c = m * c + c := by ring
      rw [ih (s + c) (by omega)]
      unfold pySlice
      rw [← List.drop_drop]
      exact List.take_append_drop c (ids.drop s)
  have hlen : ids.length ≤ 0 + ((ids.length + c - 1) / c) * c := by
    have hmod := Nat.div_add_mod (ids.length + c - 1) c
    have hmlt : (ids.length + c - 1) % c < c := Nat.mod_lt _ hc
    have hcomm : c * ((ids.length + c - 1) / c) = ((ids.length + c - 1) / c) * c :=
      Nat.mul_comm _ _
    omega
  have := key ((ids.length + c - 1) / c) 0 hlen
  simpa [batchChunks, pyRange] using this

/-- Every chunk except possibly the last has exactly `c` elements. -/
theorem batchChunks_full_size (ids : List Nat) (c : Nat) (hc : 0 < c)
    (i : Nat) (h : i + 1 < (batchChunks ids c).length) :
    ∀ (hi : i < (batchChunks ids c).length),
      ((batchChunks ids c).get ⟨i, hi⟩).length = c := by
  intro hi
  have hlen : (batchChunks ids c).length = (ids.length + c - 1) / c := by
    simp [batchChunks, pyRange_length]
  have hr : i < (pyRange ids.length c).length := by
    simpa [batchChunks] using hi
  have hget : (batchChunks ids c).get ⟨i, hi⟩ = pySlice ids (c * i) c := by
    unfold batchChunks
    rw [List.get_map]
    congr 1
    exact pyRange_get ids.length c i hr
  rw [hget]
  unfold pySlice
  rw [List.length_take, List.length_drop]
  have hdiv : i + 2 ≤ (ids.length + c - 1) / c := by omega
  have hmul : (i + 2) * c ≤ ids.length + c - 1 :=
    (Nat.le_div_iff_mul_le hc).mp hdiv
  have hexp : (i + 2) * c = i * c + c + c := by ring
  have hcm : c * i = i * c := Nat.mul_comm _ _
  omega

/-! ## Source-Fanout Aggregator (cogs/suwayomi.py, `SuwayomiCog.search_manga`,
lines 1659-1736)

A search hit carries the manga id, its title, the `inLibrary` flag and
the owning source. The per-source Gateway call is abstracted as
`call : Nat → Option (List Manga)`: `none` covers every way the call
yields no usable result (`graphql_query` returned `None`, or the body had
no truthy `fetchSourceManga`); `graphql_query` itself never raises (its
loop catches all request-level exceptions), so the `except` branch of the
search loop is not reachable through the Gateway. Python `str.lower()` is
modelled by `Char.toLower` per character, which agrees with it on the
ASCII titles at issue. -/

structure Manga where
  mid : Nat
  title : String
  inLibrary : Bool
  src : Nat
deriving DecidableEq, Repr

/-- The `for source in sources[:20]` body (cogs/suwayomi.py 1663-1713):
a usable reply contributes its first `limit` entries tagged with the
source; every iteration that completes increments `sources_searched`. -/
def searchLoop (call : Nat → Option (List Manga)) (limit : Nat) :
    List Nat → List Manga × Nat
  | [] => ([], 0)
  | s :: rest =>
    let r := searchLoop call limit rest
    match call s with
    | some mangas => ((mangas.take limit) ++ r.1, r.2 + 1)
    | none => (r.1, r.2 + 1)

/-- The whole scan with its hard cap of 20 sources (line 1663). -/
def search_manga (call : Nat → Option (List Manga)) (limit : Nat)
    (sources : List Nat) : List Manga × Nat :=
  searchLoop call limit (sources.take 20)

/-- `manga['title'].lower()` (line 1730), ASCII case folding. -/
def lowerTitle (m : Manga) : List Char := m.title.data.map Char.toLower

/-- The dedup pass (cogs/suwayomi.py 1726-1733): `seen_titles` grows as a
set of lowered titles; the first occurrence of each title is kept. -/
def dedupByTitle : List Manga → List (List Char) → List Manga
  | [], _ => []
  | m :: rest, seen =>
    if lowerTitle m ∈ seen then dedupByTitle rest seen
    else m :: dedupByTitle rest (lowerTitle m :: seen)

/-! ### Helper lemmas about the aggregator -/

theorem searchLoop_eq (call : Nat → Option (List Manga)) (limit : Nat) :
    ∀ sources : List Nat,
      searchLoop call limit sources =
        ((sources.map (fun s => match call s with
            | some mangas => mangas.take limit
            | none => [])).flatten,
         sources.length) := by
  intro sources
  induction sources with
  | nil => simp [searchLoop]
  | cons s rest ih =>
    cases hc : call s with
    | none => simp [searchLoop, hc, ih]
    | some mangas => simp [searchLoop, hc, ih]

theorem dedupByTitle_sublist :
    ∀ (l : List Manga) (seen : List (List Char)),
      (dedupByTitle l seen).Sublist l := by
  intro l
  induction l with
  | nil => intro seen; simp [dedupByTitle]
  | cons m rest ih =>
    intro seen
    by_cases hm : lowerTitle m ∈ seen
    · simp only [dedupByTitle, if_pos hm]
      exact (ih seen).cons m
    · simp only [dedupByTitle, if_neg hm]
      exact (ih _).cons₂ m

theorem dedupByTitle_not_seen :
    ∀ (l : List Manga) (seen : List (List Char)) (m : Manga),
      m ∈ dedupByTitle l seen → ¬ lowerTitle m ∈ seen := by
  intro l
  induction l with
  | nil => intro seen m hm; simp [dedupByTitle] at hm
  | cons a rest ih =>
    intro seen m hm
    by_cases ha : lowerTitle a ∈ seen
    · rw [dedupByTitle, if_pos ha] at hm
      exact ih seen m hm
    · rw [dedupByTitle, if_neg ha] at hm
      rcases List.mem_cons.mp hm with h1 | h1
      · exact h1 ▸ ha
      · intro hs
        exact ih _ m h1 (by simp [hs])

/-- First occurrence wins: each kept hit is the first entry of the input
carrying its case-folded title. -/
theorem dedupByTitle_first_wins :
    ∀ (l : List Manga) (seen : List (List Char)) (m : Manga),
      m ∈ dedupByTitle l seen →
      l.find? (fun x => lowerTitle x = lowerTitle m) = some m := by
  intro l
  induction l with
  | nil => intro seen m hm; simp [dedupByTitle] at hm
  | cons a rest ih =>
    intro seen m hm
    by_cases ha : lowerTitle a ∈ seen
    · rw [dedupByTitle, if_pos ha] at hm
      have hne : ¬ lowerTitle a = lowerTitle m := by
        intro heq
        exact dedupByTitle_not_seen rest seen m hm (heq ▸ ha)
      rw [List.find?_cons_of_neg _ (by simpa using hne)]
      exact ih seen m hm
    · rw [dedupByTitle, if_neg ha] at hm
      rcases List.mem_cons.mp hm with h1 | h1
      · subst h1
        exact List.find?_cons_of_pos _ (by simp)
      · have hnotseen := dedupByTitle_not_seen rest _ m h1
        have hne : ¬ lowerTitle a = lowerTitle m := by
          intro heq
          exact hnotseen (by simp [heq])
        rw [List.find?_cons_of_neg _ (by simpa using hne)]
        exact ih _ m h1

/-- The kept hits have pairwise distinct case-folded titles. -/
theorem dedupByTitle_nodup_titles :
    ∀ (l : List Manga) (seen : List (List Char)),
      ((dedupByTitle l seen).map lowerTitle).Nodup := by
  intro l
  induction l with
  | nil => intro seen; simp [dedupByTitle]
  | cons a rest ih =>
    intro seen
    by_cases ha : lowerTitle a ∈ seen
    · rw [dedupByTitle, if_pos ha]
      exact ih seen
    · rw [dedupByTitle, if_neg ha]
      simp only [List.map_cons, List.nodup_cons]
      refine ⟨?_, ih _⟩
      intro hmem
      obtain ⟨m, hm, heq⟩ := List.mem_map.mp hmem
      exact dedupByTitle_not_seen rest _ m hm (by simp [heq])

/-- Every input title survives into the kept hits. -/
theorem dedupByTitle_covers :
    ∀ (l : List Manga) (seen : List (List Char)) (m : Manga),
      m ∈ l → ¬ lowerTitle m ∈ seen →
      ∃ m2 ∈ dedupByTitle l seen, lowerTitle m2 = lowerTitle m := by
  intro l
  induction l with
  | nil => intro seen m hm; simp at hm
  | cons a rest ih =>
    intro seen m hm hseen
    by_cases ha : lowerTitle a ∈ seen
    · rw [dedupByTitle, if_pos ha]
      rcases List.mem_cons.mp hm with h1 | h1
      · exact absurd (h1 ▸ ha) hseen
      · exact ih seen m h1 hseen
    · rw [dedupByTitle, if_neg ha]
      by_cases heq : lowerTitle m = lowerTitle a
      · exact ⟨a, by simp, heq.symm⟩
      · rcases List.mem_cons.mp hm with h1 | h1
        · exact absurd (congrArg lowerTitle h1) heq
        · obtain ⟨m2, hm2, he2⟩ := ih (lowerTitle a :: seen) m h1
            (by simp [List.mem_cons, heq, hseen])
          exact ⟨m2, by simp [hm2], he2⟩

/-! ## Result ordering (cogs/suwayomi.py, line 1736)

`unique_results.sort(key=lambda x: (not x.get('inLibrary', False), x['title']))`

Python's `list.sort` is a stable ascending sort by the key tuple, with
`False < True` and strings compared lexicographically by code point.
A stable sort by a total preorder has a unique result, so it is modelled
by a stable insertion sort over the same key order. -/

/-- Python string `<`: lexicographic by code point. -/
def charListLt : List Char → List Char → Bool
  | [], [] => false
  | [], _ :: _ => true
  | _ :: _, [] => false
  | a :: as, b :: bs => if a < b then true else if b < a then false else charListLt as bs

/-- The sort key `(not inLibrary, title)` of line 1736. -/
def sortKey (m : Manga) : Bool × List Char := (!m.inLibrary, m.title.data)

/-- Strict comparison of key tuples, `False < True` on the flag. -/
def pairLt (x y : Bool × List Char) : Bool :=
  (!x.1 && y.1) || (x.1 == y.1 && charListLt x.2 y.2)

def keyLt (a b : Manga) : Bool := pairLt (sortKey a) (sortKey b)

/-- `a` may precede `b` in the ascending stable sort. -/
def keyLe (a b : Manga) : Bool := !(keyLt b a)

/-- Stable insertion: a new element goes after every element whose key
is less than or equal to its own. -/
def insertHit (x : Manga) : List Manga → List Manga
  | [] => [x]
  | y :: ys => if keyLe y x then y :: insertHit x ys else x :: y :: ys

/-- The sort of line 1736 as a stable insertion sort. -/
def sortHits (l : List Manga) : List Manga :=
  l.foldl (fun acc x => insertHit x acc) []

/-! ### Order lemmas -/

theorem charListLt_asymm :
    ∀ a b : List Char, charListLt a b = true → charListLt b a = false := by
  intro a
  induction a with
  | nil =>
    intro b h
    cases b with
    | nil => simp [charListLt] at h
    | cons c cs => simp [charListLt]
  | cons x xs ih =>
    intro b h
    cases b with
    | nil => simp [charListLt] at h
    | cons y ys =>
      simp only [charListLt] at h ⊢
      by_cases hxy : x < y
      · simp [hxy, lt_asymm hxy]
      · by_cases hyx : y < x
        · simp [hxy, hyx] at h
        · simp [hxy, hyx] at h ⊢
          exact ih ys h

theorem charListLt_trans :
    ∀ a b c : List Char, charListLt a b = true → charListLt b c = true →
      charListLt a c = true := by
  intro a
  induction a with
  | nil =>
    intro b c h1 h2
    cases b with
    | nil => simp [charListLt] at h1
    | cons y ys =>
      cases c with
      | nil => simp [charListLt] at h2
      | cons z zs => simp [charListLt]
  | cons x xs ih =>
    intro b c h1 h2
    cases b with
    | nil => simp [charListLt] at h1
    | cons y ys =>
      cases c with
      | nil => simp [charListLt] at h2
      | cons z zs =>
        simp only [charListLt] at h1 h2 ⊢
        by_cases hxy : x < y
        · by_cases hyz : y < z
          · simp [lt_trans hxy hyz]
          · by_cases hzy : z < y
            · simp [hyz, hzy] at h2
            · have : y = z := le_antisymm (not_lt.mp hzy) (not_lt.mp hyz)
              simp [this ▸ hxy]
        · by_cases hyx : y < x
          · simp [hxy, hyx] at h1
          · have hxyeq : x = y := le_antisymm (not_lt.mp hyx) (not_lt.mp hxy)
            subst hxyeq
            simp [hxy] at h1 ⊢
            by_cases hxz : x < z
            · simp [hxz]
            · by_cases hzx : z < x
              · simp [hxz, hzx] at h2
              · simp [hxz, hzx] at h2 ⊢
                exact ⟨not_lt.mp hzx, ih ys zs h1 h2⟩

theorem charListLt_conn :
    ∀ a b : List Char, charListLt a b = false → charListLt b a = false → a = b := by
  intro a
  induction a with
  | nil =>
    intro b h1 _
    cases b with
    | nil => rfl
    | cons y ys => simp [charListLt] at h1
  | cons x xs ih =>
    intro b h1 h2
    cases b with
    | nil => simp [charListLt] at h2
    | cons y ys =>
      simp only [charListLt] at h1 h2
      by_cases hxy : x < y
      · simp [hxy] at h1
      · by_cases hyx : y < x
        · simp [hxy, hyx] at h2
        · have hxyeq : x = y := le_antisymm (not_lt.mp hyx) (not_lt.mp hxy)
          subst hxyeq
          simp [hxy] at h1 h2
          rw [ih ys h1 h2]

theorem pairLt_conn (x y : Bool × List Char) (h1 : pairLt x y = false)
    (h2 : pairLt y x = false) : x = y := by
  obtain ⟨a, s⟩ := x
  obtain ⟨b, t⟩ := y
  simp only [pairLt] at h1 h2
  cases a <;> cases b <;> simp_all
  · exact charListLt_conn s t h1 h2
  · exact charListLt_conn s t h1 h2

theorem pairLt_asymm (x y : Bool × List Char) (h : pairLt x y = true) :
    pairLt y x = false := by
  obtain ⟨a, s⟩ := x
  obtain ⟨b, t⟩ := y
  simp only [pairLt] at h ⊢
  cases a <;> cases b <;> simp_all
  · exact charListLt_asymm s t h
  · exact charListLt_asymm s t h

theorem pairLt_trans (x y z : Bool × List Char) (h1 : pairLt x y = true)
    (h2 : pairLt y z = true) : pairLt x z = true := by
  obtain ⟨a, s⟩ := x
  obtain ⟨b, t⟩ := y
  obtain ⟨c, u⟩ := z
  simp only [pairLt] at h1 h2 ⊢
  cases a <;> cases b <;> cases c <;> simp_all
  · exact charListLt_trans s t u h1 h2
  · exact charListLt_trans s t u h1 h2

theorem keyLe_total (a b : Manga) : keyLe a b = true ∨ keyLe b a = true := by
  by_cases h : keyLt b a = true
  · right
    unfold keyLt at h
    unfold keyLe keyLt
    simp only [Bool.not_eq_true']
    exact pairLt_asymm _ _ h
  · left
    unfold keyLe
    simp [h]

theorem keyLe_trans (a b c : Manga) (h1 : keyLe a b = true) (h2 : keyLe b c = true) :
    keyLe a c = true := by
  unfold keyLe keyLt at h1 h2 ⊢
  simp only [Bool.not_eq_true'] at h1 h2 ⊢
  by_contra hca
  simp only [Bool.not_eq_false] at hca
  by_cases hbc : pairLt (sortKey b) (sortKey c) = true
  · have hba := pairLt_trans _ _ _ hbc hca
    rw [h1] at hba
    exact Bool.noConfusion hba
  · have heq : sortKey b = sortKey c :=
      pairLt_conn _ _ (by simpa using hbc) h2
    rw [← heq] at hca
    rw [h1] at hca
    exact Bool.noConfusion hca

/-- `keyLe a b` with `a` untracked and `b` tracked is impossible: tracked
entries always come first. -/
theorem keyLe_library (a b : Manga) (h : keyLe a b = true) :
    b.inLibrary = true → a.inLibrary = true := by
  intro hb
  unfold keyLe keyLt sortKey pairLt at h
  by_contra ha
  simp only [Bool.not_eq_true] at ha
  simp [ha, hb] at h

/-- `keyLe` within one library group implies title order. -/
theorem keyLe_title (a b : Manga) (h : keyLe a b = true)
    (hgrp : a.inLibrary = b.inLibrary) :
    charListLt b.title.data a.title.data = false := by
  unfold keyLe keyLt sortKey pairLt at h
  rw [hgrp] at h
  cases hb : b.inLibrary <;> rw [hb] at h <;> simp at h <;> exact h

/-! ### Sorting lemmas -/

theorem insertHit_perm (x : Manga) : ∀ l : List Manga, (insertHit x l).Perm (x :: l) := by
  intro l
  induction l with
  | nil => exact List.Perm.refl _
  | cons y ys ih =>
    by_cases h : keyLe y x = true
    · have he : insertHit x (y :: ys) = y :: insertHit x ys := by
        simp [insertHit, h]
      rw [he]
      exact (ih.cons y).trans (List.Perm.swap x y ys)
    · have he : insertHit x (y :: ys) = x :: y :: ys := by
        simp [insertHit, h]
      rw [he]

theorem sortHits_perm (l : List Manga) : (sortHits l).Perm l := by
  have key : ∀ (l acc : List Manga),
      (l.foldl (fun acc x => insertHit x acc) acc).Perm (acc ++ l) := by
    intro l
    induction l with
    | nil => intro acc; simp
    | cons x xs ih =>
      intro acc
      simp only [List.foldl_cons]
      exact (ih _).trans
        (((insertHit_perm x acc).append_right xs).trans (List.perm_middle).symm)
  simpa [sortHits] using key l []

/-- Ascending in the key order of line 1736. -/
def SortedHits (l : List Manga) : Prop := l.Pairwise (fun a b => keyLe a b = true)

theorem insertHit_sorted (x : Manga) :
    ∀ l, SortedHits l → SortedHits (insertHit x l) := by
  intro l
  induction l with
  | nil => intro _; simp [insertHit, SortedHits]
  | cons y ys ih =>
    intro hs
    rw [SortedHits, List.pairwise_cons] at hs
    obtain ⟨hy, hys⟩ := hs
    by_cases h : keyLe y x = true
    · rw [insertHit, if_pos h]
      rw [SortedHits, List.pairwise_cons]
      refine ⟨?_, ih hys⟩
      intro z hz
      have hz2 := (insertHit_perm x ys).mem_iff.mp hz
      rcases List.mem_cons.mp hz2 with h1 | h1
      · exact h1 ▸ h
      · exact hy z h1
    · rw [insertHit, if_neg h]
      have hxy : keyLe x y = true := by
        rcases keyLe_total x y with h1 | h1
        · exact h1
        · exact absurd h1 h
      rw [SortedHits, List.pairwise_cons]
      refine ⟨?_, List.pairwise_cons.mpr ⟨hy, hys⟩⟩
      intro z hz
      rcases List.mem_cons.mp hz with h1 | h1
      · exact h1 ▸ hxy
      · exact keyLe_trans x y z hxy (hy z h1)

theorem sortHits_sorted (l : List Manga) : SortedHits (sortHits l) := by
  have key : ∀ (l acc : List Manga), SortedHits acc →
      SortedHits (l.foldl (fun acc x => insertHit x acc) acc) := by
    intro l
    induction l with
    | nil => intro acc h; exact h
    | cons x xs ih => intro acc h; exact ih _ (insertHit_sorted x acc h)
  exact key l [] (by simp [SortedHits])

/-! ## Concrete instances used by the claim theorems and witnesses -/

set_option maxRecDepth 100000

/-- A network where the first configured path times out and the second
answers 200 with data `7`. -/
def envC1 : String → Response := fun e =>
  if e = "http://h/api/graphql" then Response.timeout
  else Response.http 200 false (some 7)

/-- Call state whose sticky endpoint is the path that will time out. -/
def stC1 : GwState := ⟨some "http://h/api/graphql", 0, []⟩

/-- A network where every endpoint times out. -/
def envAllTimeout : String → Response := fun _ => Response.timeout

/-- A network where every endpoint answers HTTP 500. -/
def envAll500 : String → Response := fun _ => Response.http 500 false none

/-- A fresh call state: no sticky endpoint, first session generation. -/
def stFresh : GwState := ⟨none, 0, []⟩

/-- The identifier list 1..120 of the spec's batch example. -/
def ids120 : List Nat := (List.range 120).map (fun n => n + 1)

/-- Search hit "Foo" from source B. -/
def fooB : Manga := ⟨10, "Foo", false, 1⟩

/-- Search hit "Bar" from source B. -/
def barB : Manga := ⟨11, "Bar", false, 1⟩

/-- Search hit "foo" from source C, a case-folded duplicate of `fooB`. -/
def fooC : Manga := ⟨12, "foo", false, 2⟩

/-- Source A (id 0) fails, B (id 1) returns Foo and Bar, C (id 2)
returns foo. -/
def exCall : Nat → Option (List Manga) := fun s =>
  if s = 1 then some [fooB, barB]
  else if s = 2 then some [fooC]
  else none

/-- An untracked hit whose title sorts alphabetically first. -/
def alphaHit : Manga := ⟨1, "Alpha", false, 0⟩

/-- An already-tracked hit whose title sorts alphabetically later. -/
def zetaHit : Manga := ⟨2, "Zeta", true, 0⟩

/-! ## Claim theorems -/

/-- C4: for every query, the Gateway call never raises for network-level
conditions: it always terminates with either a data payload or the
no-result value `none`, and when every candidate ends in a caught
network-level condition (timeout, connection fault, bad response body)
the whole call folds them into the `none` result. -/
theorem c4_gateway_never_raises (env : String → Response) (url : String)
    (st : GwState) :
    ((graphql_query env url st).1 = none ∨
      ∃ d, (graphql_query env url st).1 = some d) ∧
    ((∀ e ∈ buildEndpoints st.sticky url, netFault (env e) = true) →
      (graphql_query env url st).1 = none) := by
  constructor
  · cases h : (graphql_query env url st).1 with
    | none => exact Or.inl rfl
    | some d => exact Or.inr ⟨d, rfl⟩
  · intro h
    exact (stepEndpoints_all_faults env (buildEndpoints st.sticky url)
      { st with tried := [] } h).1

/-- C4 witness: with every endpoint timing out, a concrete call returns
the no-result value. -/
theorem c4_gateway_never_raises_witness :
    (graphql_query envAllTimeout "http://h" stFresh).1 = none :=
  (c4_gateway_never_raises envAllTimeout "http://h" stFresh).2 (by decide)

/-- C5: within one Gateway call the candidate sequence is: the sticky
endpoint first when set, then the fixed configured candidates with
duplicates removed; the list has no duplicates and the endpoints actually
tried (a prefix of it) are therefore never tried twice. -/
theorem c5_candidate_order (sticky : Option String) (url : String)
    (env : String → Response) (st : GwState) :
    (buildEndpoints sticky url).Nodup ∧
    (∀ s, sticky = some s → (buildEndpoints sticky url).head? = some s) ∧
    buildEndpoints sticky url =
      sticky.toList ++ (base_endpoints url).filter (fun b => ¬ b ∈ sticky.toList) ∧
    (graphql_query env url st).2.tried.Nodup := by
  refine ⟨buildEndpoints_nodup sticky url, ?_, buildEndpoints_eq sticky url, ?_⟩
  · intro s hs
    subst hs
    rw [buildEndpoints_eq]
    rfl
  · obtain ⟨m, hm⟩ := stepEndpoints_tried_take env (buildEndpoints st.sticky url)
      { st with tried := [] }
    show (stepEndpoints env (buildEndpoints st.sticky url)
      { st with tried := [] }).2.tried.Nodup
    rw [hm]
    simp only [List.nil_append]
    exact (buildEndpoints_nodup st.sticky url).sublist (List.take_sublist m _)

/-- C5 witness: with a concrete sticky endpoint the candidate list starts
with it, has no duplicates, and a concrete call tries no endpoint twice. -/
theorem c5_candidate_order_witness :
    (buildEndpoints (some "http://h/graphql") "http://h").Nodup ∧
    (buildEndpoints (some "http://h/graphql") "http://h").head? =
      some "http://h/graphql" ∧
    (graphql_query envAll500 "http://h" stC1).2.tried.Nodup := by
  refine ⟨(c5_candidate_order (some "http://h/graphql") "http://h" envAll500 stFresh).1,
    (c5_candidate_order (some "http://h/graphql") "http://h" envAll500 stFresh).2.1
      "http://h/graphql" rfl,
    (c5_candidate_order (some "http://h/graphql") "http://h" envAll500 stC1).2.2.2⟩

/-- C6: a candidate answering 200 whose body reports errors and carries
no usable data makes the call return the no-result value at once, with no
further candidate tried; if errors come alongside usable data, the data
is still returned and the candidate is recorded as sticky. -/
theorem c6_server_error_stops (env : String → Response) (e : String)
    (rest : List String) (st : GwState) :
    (env e = Response.http 200 true none →
      stepEndpoints env (e :: rest) st = (none, { st with tried := st.tried ++ [e] })) ∧
    (∀ d, env e = Response.http 200 true (some d) →
      stepEndpoints env (e :: rest) st =
        (some d, { st with tried := st.tried ++ [e], sticky := some e })) := by
  constructor
  · intro h
    exact stepEndpoints_200_errors_no_data env e rest st h
  · intro d h
    exact stepEndpoints_200_usable env e rest st true (some d) h (Or.inr rfl)

/-- C6 witness: a concrete errors-without-data reply stops the scan with
`none`; a concrete errors-with-data reply returns the data and sets the
sticky endpoint. -/
theorem c6_server_error_stops_witness :
    stepEndpoints (fun _ => Response.http 200 true none) ["a", "b"] stFresh =
      (none, { stFresh with tried := ["a"] }) ∧
    stepEndpoints (fun _ => Response.http 200 true (some 3)) ["a", "b"] stFresh =
      (some 3, { stFresh with tried := ["a"], sticky := some "a" }) := by
  constructor
  · have h := (c6_server_error_stops (fun _ => Response.http 200 true none)
      "a" ["b"] stFresh).1 rfl
    simpa [stFresh] using h
  · have h := (c6_server_error_stops (fun _ => Response.http 200 true (some 3))
      "a" ["b"] stFresh).2 3 rfl
    simpa [stFresh] using h

/-- C9: a candidate answering an HTTP status other than 200 and 404 (for
example 500) does not end the call: the Gateway advances to the next
candidate, and only after every candidate is exhausted does the call
return the no-result value. -/
theorem c9_bad_status_advances (env : String → Response) (st : GwState) :
    (∀ e rest status errors dat, env e = Response.http status errors dat →
      status ≠ 200 → status ≠ 404 →
      stepEndpoints env (e :: rest) st =
        stepEndpoints env rest { st with tried := st.tried ++ [e] }) ∧
    (∀ url, (∀ e ∈ buildEndpoints st.sticky url, ∃ status errors dat,
        env e = Response.http status errors dat ∧ status ≠ 200 ∧ status ≠ 404) →
      (graphql_query env url st).1 = none) := by
  constructor
  · intro e rest status errors dat h h200 h404
    exact stepEndpoints_other_status env e rest st status errors dat h h200 h404
  · intro url h
    exact (stepEndpoints_all_bad_status env (buildEndpoints st.sticky url)
      { st with tried := [] } h).1

/-- C9 witness: with every endpoint answering 500, a concrete call tries
all candidates and returns the no-result value. -/
theorem c9_bad_status_advances_witness :
    stepEndpoints envAll500 ["a", "b"] stFresh =
      stepEndpoints envAll500 ["b"] { stFresh with tried := ["a"] } ∧
    (graphql_query envAll500 "http://h" stFresh).1 = none := by
  constructor
  · have h := (c9_bad_status_advances envAll500 stFresh).1 "a" ["b"] 500 false none
      rfl (by decide) (by decide)
    simpa [stFresh] using h
  · exact (c9_bad_status_advances envAll500 stFresh).2 "http://h"
      (fun e _ => ⟨500, false, none, rfl, by decide, by decide⟩)

/-- C1 counterexample: in a concrete call whose sticky endpoint times out
and whose second candidate then succeeds, a network fault occurs at a
tried candidate, yet the call ends with the same session generation it
started with — the Transport Session was never recreated — so the claim
that every timeout or connection-level fault recreates the session (and
clears the sticky endpoint at the fault) is false on the code. -/
theorem c1_fault_handling_counterexample :
    netFault (envC1 "http://h/api/graphql") = true ∧
    envC1 "http://h/api/graphql" = Response.timeout ∧
    (graphql_query envC1 "http://h" stC1).2.tried.head? =
      some "http://h/api/graphql" ∧
    (graphql_query envC1 "http://h" stC1).1 = some 7 ∧
    (graphql_query envC1 "http://h" stC1).2.sessionGen = stC1.sessionGen := by
  decide

/-- C1 amended: on an `aiohttp.ClientError`-class connection fault the
call recreates the Transport Session and continues to the next candidate;
on a timeout it continues to the next candidate with the same session;
neither fault touches the sticky endpoint at that point — the sticky
endpoint is cleared only when every candidate has been exhausted. -/
theorem c1_fault_handling_amended (env : String → Response) (e : String)
    (rest : List String) (st : GwState) :
    (env e = Response.connFault →
      stepEndpoints env (e :: rest) st =
        stepEndpoints env rest
          { st with tried := st.tried ++ [e], sessionGen := st.sessionGen + 1 }) ∧
    (env e = Response.timeout →
      stepEndpoints env (e :: rest) st =
        stepEndpoints env rest { st with tried := st.tried ++ [e] }) ∧
    stepEndpoints env [] st = (none, { st with sticky := none }) := by
  refine ⟨?_, ?_, stepEndpoints_nil env st⟩
  · intro h
    exact stepEndpoints_connFault env e rest st h
  · intro h
    exact stepEndpoints_timeout env e rest st h

/-- C1 witness: a concrete connection fault bumps the session generation
and moves on; a concrete timeout moves on with the same generation; an
exhausted candidate list clears the sticky endpoint. -/
theorem c1_fault_handling_amended_witness :
    stepEndpoints (fun _ => Response.connFault) ["a", "b"] stFresh =
      stepEndpoints (fun _ => Response.connFault) ["b"]
        { stFresh with tried := ["a"], sessionGen := 1 } ∧
    stepEndpoints envAllTimeout ["a", "b"] stFresh =
      stepEndpoints envAllTimeout ["b"] { stFresh with tried := ["a"] } ∧
    stepEndpoints envAllTimeout [] stC1 = (none, { stC1 with sticky := none }) := by
  refine ⟨?_, ?_, (c1_fault_handling_amended envAllTimeout "a" [] stC1).2.2⟩
  · have h := (c1_fault_handling_amended (fun _ => Response.connFault)
      "a" ["b"] stFresh).1 rfl
    simpa [stFresh] using h
  · have h := (c1_fault_handling_amended envAllTimeout "a" ["b"] stFresh).2.1 rfl
    simpa [stFresh] using h

/-- C2: for every identifier list and chunk size `c > 0`, the batch loop
slices consecutive chunks of size `c` (last possibly shorter) in list
order; when every call succeeds it issues exactly `ceil(|ids|/c)` calls
and reports `(|ids|, true)`; at the first failing chunk it stops, having
issued only the chunks up to and including it, and reports the count of
ids in the fully-succeeded chunks with `allSucceeded = false`. -/
theorem c2_batch_executor (ids : List Nat) (c : Nat) (ok : Nat → Bool) (hc : 0 < c) :
    (batchChunks ids c).flatten = ids ∧
    (batchChunks ids c).length = (ids.length + c - 1) / c ∧
    (∀ i (hi : i < (batchChunks ids c).length), i + 1 < (batchChunks ids c).length →
      ((batchChunks ids c).get ⟨i, hi⟩).length = c) ∧
    ((∀ k, k < (batchChunks ids c).length → ok k = true) →
      submitBatch ids c ok = ⟨ids.length, true, batchChunks ids c⟩) ∧
    (∀ m, m < (batchChunks ids c).length → ok m = false →
      (∀ j, j < m → ok j = true) →
      submitBatch ids c ok =
        ⟨(((batchChunks ids c).take m).map List.length).sum, false,
          (batchChunks ids c).take (m + 1)⟩) := by
  have hlen : (batchChunks ids c).length = (pyRange ids.length c).length := by
    simp [batchChunks]
  refine ⟨batchChunks_flatten ids c hc, by simp [batchChunks, pyRange_length],
    ?_, ?_, ?_⟩
  · intro i hi h1
    exact batchChunks_full_size ids c hc i h1 hi
  · intro h
    have hok : ∀ j, j < (pyRange ids.length c).length → ok (0 + j) = true := by
      intro j hj
      simpa using h j (by rw [hlen]; exact hj)
    have hrun := submitGo_all_ok ids c ok (pyRange ids.length c) 0 0 hok
    rw [submitBatch, hrun]
    have hsum : (((pyRange ids.length c).map (fun i => pySlice ids i c)).map
        List.length).sum = ids.length := by
      have hfl := congrArg List.length (batchChunks_flatten ids c hc)
      rw [List.length_flatten] at hfl
      simpa [batchChunks] using hfl
    simp [batchChunks]
    simpa [List.map_map] using hsum
  · intro m hm hfail hpre
    have hm2 : m < (pyRange ids.length c).length := by rw [← hlen]; exact hm
    have hrun := submitGo_first_fail ids c ok m (pyRange ids.length c) 0 0 hm2
      (by simpa using hfail) (fun j hj => by simpa using hpre j hj)
    rw [submitBatch, hrun]
    simp [batchChunks, List.map_take]

/-- C2 witness: for ids 1..120 with chunk size 50 the loop issues exactly
3 calls of sizes 50, 50, 20 and reports `(120, true)`; when the second
call fails it reports `(50, false)` having issued only two calls. -/
theorem c2_batch_executor_witness :
    (batchChunks ids120 50).flatten = ids120 ∧
    (batchChunks ids120 50).map List.length = [50, 50, 20] ∧
    submitBatch ids120 50 (fun _ => true) = ⟨120, true, batchChunks ids120 50⟩ ∧
    submitBatch ids120 50 (fun k => decide (k ≠ 1)) =
      ⟨50, false, (batchChunks ids120 50).take 2⟩ := by
  refine ⟨(c2_batch_executor ids120 50 (fun _ => true) (by decide)).1, by decide,
    ?_, ?_⟩
  · exact (c2_batch_executor ids120 50 (fun _ => true) (by decide)).2.2.2.1
      (fun k _ => rfl)
  · have hpre : ∀ j, j < 1 → (fun k => decide (k ≠ 1)) j = true := by
      intro j hj
      have hj0 : j = 0 := Nat.lt_one_iff.mp hj
      rw [hj0]
      rfl
    have h := (c2_batch_executor ids120 50 (fun k => decide (k ≠ 1))
      (by decide)).2.2.2.2 1 (by decide) (by decide) hpre
    have hsum : (((batchChunks ids120 50).take 1).map List.length).sum = 50 := by
      decide
    rw [← hsum]
    exact h

/-- C3: the aggregator scans (at most 20) sources in order, counting every
completed source as attempted whether or not its call yielded usable
data, and concatenating the usable results in per-source order; the dedup
pass keeps the first occurrence of each case-folded title, preserving
order. In the concrete scenario A (fails), B (Foo, Bar), C (foo), the
result is exactly Foo and Bar from B with attempted = 3. -/
theorem c3_search_fanout (call : Nat → Option (List Manga)) (limit : Nat)
    (sources : List Nat) :
    (search_manga call limit sources).2 = (sources.take 20).length ∧
    (search_manga call limit sources).1 =
      ((sources.take 20).map (fun s => match call s with
        | some mangas => mangas.take limit
        | none => [])).flatten ∧
    (∀ l : List Manga, (dedupByTitle l []).Sublist l) ∧
    (∀ (l : List Manga) (m : Manga), m ∈ dedupByTitle l [] →
      l.find? (fun x => lowerTitle x = lowerTitle m) = some m) ∧
    (∀ l : List Manga, ((dedupByTitle l []).map lowerTitle).Nodup) ∧
    (∀ (l : List Manga) (m : Manga), m ∈ l →
      ∃ m2 ∈ dedupByTitle l [], lowerTitle m2 = lowerTitle m) ∧
    search_manga exCall 5 [0, 1, 2] = ([fooB, barB, fooC], 3) ∧
    dedupByTitle [fooB, barB, fooC] [] = [fooB, barB] := by
  refine ⟨?_, ?_, fun l => dedupByTitle_sublist l [],
    fun l m hm => dedupByTitle_first_wins l [] m hm,
    fun l => dedupByTitle_nodup_titles l [],
    fun l m hm => dedupByTitle_covers l [] m hm (by simp),
    by decide, by decide⟩
  · rw [search_manga, searchLoop_eq]
  · rw [search_manga, searchLoop_eq]

/-- C3 witness: the concrete three-source scenario evaluates as the claim
says. -/
theorem c3_search_fanout_witness :
    search_manga exCall 5 [0, 1, 2] = ([fooB, barB, fooC], 3) ∧
    dedupByTitle [fooB, barB, fooC] [] = [fooB, barB] :=
  ⟨(c3_search_fanout exCall 5 [0, 1, 2]).2.2.2.2.2.2.1,
   (c3_search_fanout exCall 5 [0, 1, 2]).2.2.2.2.2.2.2⟩

/-- C7: the final ordering is a permutation of the deduplicated hits,
ascending in the key `(not tracked, title)`: every hit flagged as already
tracked precedes every untracked hit, and within one group titles are in
order; concretely, a tracked "Zeta" is listed before an untracked
"Alpha". -/
theorem c7_sort_tracked_first (l : List Manga) :
    (sortHits l).Perm l ∧
    (sortHits l).Pairwise (fun a b => keyLe a b = true) ∧
    (sortHits l).Pairwise (fun a b => b.inLibrary = true → a.inLibrary = true) ∧
    (sortHits l).Pairwise (fun a b => a.inLibrary = b.inLibrary →
      charListLt b.title.data a.title.data = false) ∧
    sortHits [alphaHit, zetaHit] = [zetaHit, alphaHit] := by
  have hs : (sortHits l).Pairwise (fun a b => keyLe a b = true) := sortHits_sorted l
  refine ⟨sortHits_perm l, hs, ?_, ?_, by decide⟩
  · exact hs.imp (fun h => keyLe_library _ _ h)
  · exact hs.imp (fun h hgrp => keyLe_title _ _ h hgrp)

/-- C7 witness: the tracked later-titled hit sorts first in the concrete
two-hit search, and the output is a permutation of the input. -/
theorem c7_sort_tracked_first_witness :
    sortHits [alphaHit, zetaHit] = [zetaHit, alphaHit] ∧
    (sortHits [alphaHit, zetaHit]).Perm [alphaHit, zetaHit] :=
  ⟨(c7_sort_tracked_first [alphaHit, zetaHit]).2.2.2.2,
   (c7_sort_tracked_first [alphaHit, zetaHit]).1⟩

theorem mem_of_head?_eq {l : List Char} {c : Char} (h : l.head? = some c) :
    c ∈ l := by
  cases l with
  | nil => exact absurd h (by simp)
  | cons a t =>
    have ha : a = c := by simpa using h
    simp [← ha]

theorem mem_of_getLast?_eq {l : List Char} {c : Char} (h : l.getLast? = some c) :
    c ∈ l := by
  rw [List.getLast?_eq_head?_reverse] at h
  have hm := mem_of_head?_eq h
  simpa using hm

/-- A value that is a clean body wrapped in double quotes normalizes to
the body: `strip()` leaves it alone, `strip('"')` peels the quotes,
`strip("'")` leaves it alone, `rstrip('/')` leaves it alone. -/
theorem normalizeUrl_quoted (u : List Char) (hne : u ≠ [])
    (hclean : ∀ c ∈ u, ¬ c = '"' ∧ ¬ c = '\'' ∧ c.isWhitespace = false)
    (hslash : ∀ c, u.getLast? = some c → ¬ c = '/') :
    normalizeUrl ('"' :: u ++ ['"']) = u := by
  unfold normalizeUrl
  have hlast : ('"' :: u ++ ['"'] : List Char).getLast? = some '"' := by
    rw [show ('"' :: u ++ ['"'] : List Char) = ('"' :: u) ++ ['"'] from by simp]
    exact List.getLast?_concat _
  have hws : pyStrip Char.isWhitespace ('"' :: u ++ ['"']) = '"' :: u ++ ['"'] := by
    apply pyStrip_of_ends_false
    · intro c hc
      have h1 : '"' = c := by simpa using hc
      rw [← h1]
      decide
    · intro c hc
      rw [hlast] at hc
      have h1 : '"' = c := by simpa using hc
      rw [← h1]
      decide
  rw [hws]
  have hq : pyStrip (fun c => c = '"') ('"' :: u ++ ['"']) = u :=
    pyStrip_quote_wrap u hne (fun c hc => (hclean c hc).1)
  rw [hq]
  have hsq : pyStrip (fun c => c = '\'') u = u := by
    apply pyStrip_of_ends_false
    · intro c hc
      simpa using (hclean c (mem_of_head?_eq hc)).2.1
    · intro c hc
      simpa using (hclean c (mem_of_getLast?_eq hc)).2.1
  rw [hsq]
  apply stripRight_of_last_false
  intro c hc
  simpa using hslash c hc

/-- The API key line strips whitespace and quotes the same way, with no
trailing-slash strip. -/
theorem normalizeApiKey_quoted (u : List Char) (hne : u ≠ [])
    (hclean : ∀ c ∈ u, ¬ c = '"' ∧ ¬ c = '\'' ∧ c.isWhitespace = false) :
    normalizeApiKey ('"' :: u ++ ['"']) = u := by
  unfold normalizeApiKey
  have hlast : ('"' :: u ++ ['"'] : List Char).getLast? = some '"' := by
    rw [show ('"' :: u ++ ['"'] : List Char) = ('"' :: u) ++ ['"'] from by simp]
    exact List.getLast?_concat _
  have hws : pyStrip Char.isWhitespace ('"' :: u ++ ['"']) = '"' :: u ++ ['"'] := by
    apply pyStrip_of_ends_false
    · intro c hc
      have h1 : '"' = c := by simpa using hc
      rw [← h1]
      decide
    · intro c hc
      rw [hlast] at hc
      have h1 : '"' = c := by simpa using hc
      rw [← h1]
      decide
  rw [hws]
  have hq : pyStrip (fun c => c = '"') ('"' :: u ++ ['"']) = u :=
    pyStrip_quote_wrap u hne (fun c hc => (hclean c hc).1)
  rw [hq]
  apply pyStrip_of_ends_false
  · intro c hc
    simpa using (hclean c (mem_of_head?_eq hc)).2.1
  · intro c hc
    simpa using (hclean c (mem_of_getLast?_eq hc)).2.1

/-- C10: `SUWAYOMI_URL` is normalized before validation — surrounding
whitespace, surrounding double and single quotes and trailing slashes are
stripped (the API key loses surrounding whitespace and quotes) — so a
quote-wrapped URL passes startup validation with the quotes removed;
validation then rejects exactly a URL that, after stripping, is empty,
does not start with `http://` or `https://`, or still contains a quote. -/
theorem c10_config_normalization (l u : List Char) :
    (validConfigUrl l = true ↔
      (l ≠ [] ∧
       (leadsWith "http://".data l = true ∨ leadsWith "https://".data l = true) ∧
       ¬ '"' ∈ l ∧ ¬ '\'' ∈ l)) ∧
    (u ≠ [] →
     (∀ c ∈ u, ¬ c = '"' ∧ ¬ c = '\'' ∧ c.isWhitespace = false) →
     (∀ c, u.getLast? = some c → ¬ c = '/') →
     normalizeUrl ('"' :: u ++ ['"']) = u ∧
     (leadsWith "http://".data u = true →
       validConfigUrl (normalizeUrl ('"' :: u ++ ['"'])) = true)) ∧
    (u ≠ [] →
     (∀ c ∈ u, ¬ c = '"' ∧ ¬ c = '\'' ∧ c.isWhitespace = false) →
     normalizeApiKey ('"' :: u ++ ['"']) = u) := by
  refine ⟨?_, ?_, fun hne hclean => normalizeApiKey_quoted u hne hclean⟩
  · unfold validConfigUrl
    simp only [Bool.and_eq_true, Bool.or_eq_true, Bool.not_eq_true']
    constructor
    · intro ⟨⟨hne, hlead⟩, hq⟩
      refine ⟨by simpa using hne, hlead, ?_, ?_⟩
      · intro hmem
        simp [hmem] at hq
      · intro hmem
        simp [hmem] at hq
    · intro ⟨hne, hlead, hq1, hq2⟩
      refine ⟨⟨by simpa using hne, hlead⟩, ?_⟩
      simp [hq1, hq2]
  · intro hne hclean hslash
    have hnorm := normalizeUrl_quoted u hne hclean hslash
    refine ⟨hnorm, fun hlead => ?_⟩
    rw [hnorm]
    unfold validConfigUrl
    simp only [Bool.and_eq_true, Bool.or_eq_true, Bool.not_eq_true']
    refine ⟨⟨by simpa using hne, Or.inl hlead⟩, ?_⟩
    have hq1 : ¬ '"' ∈ u := fun hmem => (hclean _ hmem).1 rfl
    have hq2 : ¬ '\'' ∈ u := fun hmem => (hclean _ hmem).2.1 rfl
    simp [hq1, hq2]

/-- C10 witness: a double-quote-wrapped URL passes validation with the
quotes removed; trailing slashes and whitespace are stripped too; a
quote-wrapped API key is unwrapped. -/
theorem c10_config_normalization_witness :
    normalizeUrl ('"' :: "http://host".data ++ ['"']) = "http://host".data ∧
    validConfigUrl (normalizeUrl ('"' :: "http://host".data ++ ['"'])) = true ∧
    normalizeApiKey ('"' :: "secretkey".data ++ ['"']) = "secretkey".data ∧
    normalizeUrl "  \"http://host/\"  ".data = "http://host".data := by
  have h := (c10_config_normalization [] "http://host".data).2.1 (by decide)
    (by decide) (by decide)
  refine ⟨h.1, h.2 (by decide), ?_, by decide⟩
  exact (c10_config_normalization [] "secretkey".data).2.2 (by decide) (by decide)

/-- C8: `ensure_session` returns the existing handle unchanged when it is
present and open; when it is missing or closed it builds exactly one new
handle; because the check-then-create section runs under the session
lock, two serialized acquisitions never create two handles (the second
returns the first's handle); `close` is idempotent and a no-op on an
absent handle; and along every `ensure`/`close` operation sequence from
start-up at most one live handle exists, and it is the current one. -/
theorem c8_session_lifecycle :
    (∀ st h, st.current = some h → ¬ h ∈ st.closedIds → ensure_session st = (h, st)) ∧
    (∀ st, (st.current = none ∨ ∃ h, st.current = some h ∧ h ∈ st.closedIds) →
      ensure_session st =
        (st.nextId,
         { nextId := st.nextId + 1, current := some st.nextId,
           closedIds := st.closedIds, created := st.nextId :: st.created })) ∧
    (∀ st, SessInv st →
      ensure_session (ensure_session st).2 =
        ((ensure_session st).1, (ensure_session st).2)) ∧
    (∀ st, close_session (close_session st) = close_session st) ∧
    (∀ st, st.current = none → close_session st = st) ∧
    (∀ ops, SessInv (runSessOps ops initSessionSt) ∧
      (liveHandles (runSessOps ops initSessionSt)).length ≤ 1 ∧
      (∀ h ∈ liveHandles (runSessOps ops initSessionSt),
        (runSessOps ops initSessionSt).current = some h)) := by
  refine ⟨?_, ?_, ?_, ?_, ?_, ?_⟩
  · intro st h hc hn
    simp [ensure_session, hc, hn]
  · intro st hdead
    rcases hdead with hc | ⟨h, hc, hcl⟩
    · simp [ensure_session, hc, buildSession]
    · simp [ensure_session, hc, hcl, buildSession]
  · intro st hinv
    obtain ⟨_, _, _, hclosed, _⟩ := hinv
    have hfresh : ¬ st.nextId ∈ st.closedIds := fun hmem =>
      absurd (hclosed _ hmem) (lt_irrefl _)
    rcases hc : st.current with _ | h
    · simp [ensure_session, hc, buildSession, hfresh]
    · by_cases hcl : h ∈ st.closedIds
      · simp [ensure_session, hc, hcl, buildSession, hfresh]
      · simp [ensure_session, hc, hcl]
  · intro st
    rcases hc : st.current with _ | h
    · simp [close_session, hc]
    · by_cases hcl : h ∈ st.closedIds
      · simp [close_session, hc, hcl]
      · simp [close_session, hc, hcl]
  · intro st hc
    simp [close_session, hc]
  · intro ops
    have h := sessInv_runOps ops initSessionSt sessInv_init
    obtain ⟨h1, h2, _, _, _⟩ := h
    exact ⟨sessInv_runOps ops initSessionSt sessInv_init, h1, h2⟩

/-- C8 witness: from start-up, acquiring twice creates one handle and
returns it both times; closing twice equals closing once; a run of
`ensure, close, ensure, ensure, close, close` ends with at most one live
handle. -/
theorem c8_session_lifecycle_witness :
    ensure_session initSessionSt =
      (0, { nextId := 1, current := some 0, closedIds := [], created := [0] }) ∧
    ensure_session (ensure_session initSessionSt).2 =
      ((ensure_session initSessionSt).1, (ensure_session initSessionSt).2) ∧
    close_session (close_session (ensure_session initSessionSt).2) =
      close_session (ensure_session initSessionSt).2 ∧
    (liveHandles (runSessOps
      [SessOp.ensure, SessOp.close, SessOp.ensure, SessOp.ensure,
       SessOp.close, SessOp.close] initSessionSt)).length ≤ 1 := by
  refine ⟨?_, c8_session_lifecycle.2.2.1 initSessionSt sessInv_init,
    c8_session_lifecycle.2.2.2.1 (ensure_session initSessionSt).2,
    (c8_session_lifecycle.2.2.2.2.2
      [SessOp.ensure, SessOp.close, SessOp.ensure, SessOp.ensure,
       SessOp.close, SessOp.close]).2.1⟩
  have h := c8_session_lifecycle.2.1 initSessionSt (Or.inl rfl)
  simpa [initSessionSt] using h
